import Mathlib

/-!
# Verification of the `Bitfield` repository

A shallow embedding of `bitfield/bitfield.py` (the `Bitfield` class) and
`bitfield/chunker.py` (`chunk_file`), together with theorems settling the
frozen claims about the library.

Modelling conventions:

* Python's arbitrary-precision non-negative integers are modelled by `Nat`.
  Negative stored values are outside the modelled domain: the specification
  (§9, design notes) explicitly leaves the interaction of negative values
  with fixed-width masking as an open, implementation-defined question.
* Indexing keys are `Int` (Python indices may be negative); slice endpoints
  are `Option Int` (a missing endpoint is Python's `None`).
* Methods that can raise return `Except PyError _`; an `.error` result means
  the Python call raises and the receiver is left unmodified.
* Mutating methods (`__setitem__`, `__delitem__`) are modelled as functions
  from the receiver to the updated receiver.
* Python's slice semantics (`tuple(range(length))[key]`, `del lst[key]`) are
  embedded by `sliceIndices`, which follows CPython's
  `PySlice_Unpack`/`PySlice_AdjustIndices` exactly.
-/

deriving instance DecidableEq for Except

namespace Bitfield

/-- Errors the indexing methods of `bitfield.py` can raise. -/
inductive PyError where
  /-- Python `IndexError('Bitfield index out of range')`. -/
  | indexError
  /-- Python `ValueError`: raised by Python slicing itself when a slice step is 0. -/
  | valueError
deriving DecidableEq, Repr

/-- Fuel-driven helper for `bitLen`; structural in the fuel so that the kernel
can evaluate it.  `bitLenAux fuel n` equals Python's `n.bit_length()` whenever
`n ≤ fuel`. -/
def bitLenAux : Nat → Nat → Nat
  | _, 0 => 0
  | 0, _ + 1 => 0
  | fuel + 1, n + 1 => bitLenAux fuel ((n + 1) / 2) + 1

/-- Python's `int.bit_length()` for non-negative integers: 0 for 0, otherwise
the index of the most significant set bit plus one. -/
def bitLen (n : Nat) : Nat := bitLenAux n n

end Bitfield

/-- The `Bitfield` class of `bitfield/bitfield.py`: a Python big integer
(`self.__value`, here non-negative, see the module docstring) together with an
optional pinned width (`self.__width`; the fixed-width flag of the source is
`width.isSome`). -/
structure Bitfield where
  value : Nat
  width : Option Nat
deriving DecidableEq, Repr

namespace Bitfield

/-- Read of the `value` property: in fixed-width mode the stored integer is
masked to the low `width` bits (`self.__value & ((1 << self.width) - 1)`);
in dynamic mode the stored integer is returned unchanged. -/
def val (b : Bitfield) : Nat :=
  match b.width with
  | some w => b.value &&& ((1 <<< w) - 1)
  | none => b.value

/-- Length per `__len__`: the pinned width in fixed-width mode, else
`self.value.bit_length()` (in dynamic mode the `value` property returns the
raw stored integer). -/
def len (b : Bitfield) : Nat :=
  match b.width with
  | some w => w
  | none => bitLen b.value

/-- Index normalization shared by the integer-key branches of `__getitem__`,
`__setitem__` and `__delitem__`:
`if key < 0: key *= -1; key = length - key`. -/
def normIdx (length : Nat) (key : Int) : Nat :=
  if key < 0 then length - key.natAbs else key.toNat

/-- Python's `x & ~mask` on non-negative integers: clearing from `x` the bits
set in `mask`.  Since `x &&& mask` is bitwise below `x`, xoring it back out
performs exactly the clearing; `testBit_andNot` below certifies this
translation. -/
def andNot (x mask : Nat) : Nat := x ^^^ (x &&& mask)

/-- Integer-key branch of `__getitem__`: bounds check, normalize, build the
single-bit mask and shift the selected bit down to the LSB of a fresh
dynamic-width `Bitfield`. -/
def getInt (b : Bitfield) (key : Int) : Except PyError Bitfield :=
  let length := b.len
  if key ≥ (length : Int) ∨ key < -(length : Int) then
    .error .indexError
  else
    let k := normIdx length key
    let mask := 1 <<< k
    .ok ⟨(b.val &&& mask) >>> k, none⟩

/-- Integer-key branch of `__setitem__`: bounds check, normalize, clear the
selected bit (`self.value &= ~mask`, which reads the masked property and
stores the cleared integer), then OR in the whole input shifted up by the
normalized position (`value <<= key; self.value |= value`). -/
def setInt (b : Bitfield) (key : Int) (v : Nat) : Except PyError Bitfield :=
  let length := b.len
  if key ≥ (length : Int) ∨ key < -(length : Int) then
    .error .indexError
  else
    let k := normIdx length key
    let mask := 1 <<< k
    let b1 : Bitfield := { b with value := andNot b.val mask }
    .ok { b1 with value := b1.val ||| (v <<< k) }

/-- Check performed by the slice branches of `__getitem__` and `__setitem__`:
`key.stop is not None and key.stop > length`.  Note the raw (un-normalized)
`stop` is compared, so a negative `stop` never triggers it. -/
def stopTooBig (stop? : Option Int) (length : Nat) : Bool :=
  match stop? with
  | some s => s > (length : Int)
  | none => false

/-- Clamped slice endpoints per CPython `PySlice_Unpack` +
`PySlice_AdjustIndices` for a sequence of length `n`: a missing endpoint
defaults to the far end for the sign of `step`; a negative endpoint is shifted
by `n` and clamped below; an endpoint past the end is clamped to the end
(`n` resp. `n - 1` for positive resp. negative step). -/
def sliceBounds (n : Nat) (start? stop? : Option Int) (step : Int) : Int × Int :=
  let lower : Int := if step > 0 then 0 else -1
  let upper : Int := if step > 0 then (n : Int) else (n : Int) - 1
  let start := match start? with
    | none => if step > 0 then lower else upper
    | some s => if s < 0 then max (s + (n : Int)) lower else min s upper
  let stop := match stop? with
    | none => if step > 0 then upper else lower
    | some s => if s < 0 then max (s + (n : Int)) lower else min s upper
  (start, stop)

/-- Number of indices a clamped slice selects, per CPython
`PySlice_AdjustIndices`: `(stop - start - 1) // step + 1` when the slice is
non-empty (the quotient is computed on non-negative operands, so `Nat`
division coincides with Python's floor division). -/
def sliceCount (start stop step : Int) : Nat :=
  if 0 < step ∧ start < stop then (stop - start - 1).toNat / step.toNat + 1
  else if step < 0 ∧ stop < start then (start - stop - 1).toNat / (-step).toNat + 1
  else 0

/-- The list of original bit positions selected by
`tuple(range(length))[slice(start?, stop?, step?)]`, in visit order:
`start, start + step, start + 2*step, ...`.  All visited positions are
non-negative, so the `Int.toNat` casts are lossless. -/
def sliceIndices (n : Nat) (start? stop? step? : Option Int) : List Nat :=
  let step := step?.getD 1
  let bounds := sliceBounds n start? stop? step
  (List.range (sliceCount bounds.1 bounds.2 step)).map
    (fun i : Nat => (bounds.1 + step * (i : Int)).toNat)

/-- The bit-repacking loop shared verbatim by the slice branch of
`__getitem__` and the slice branch of `__delitem__`: for each
`(new_index, old_index)` in `zip(range(length), old_indices)`, copy bit
`old_index` of `v` to bit `new_index` of the accumulator. -/
def packSelect (v : Nat) (length : Nat) (old_indices : List Nat) : Nat :=
  (List.zip (List.range length) old_indices).foldl
    (fun val p => val ||| (((v &&& (1 <<< p.2)) >>> p.2) <<< p.1)) 0

/-- Slice branch of `__getitem__`: the `stop > length` check, then Python
slicing of `tuple(range(length))` to obtain the selected positions, then the
repacking loop; the result is a fresh dynamic-width `Bitfield`.  (A slice
step of 0 makes the Python slicing itself raise `ValueError`.) -/
def getSlice (b : Bitfield) (start? stop? step? : Option Int) : Except PyError Bitfield :=
  let length := b.len
  if stopTooBig stop? length then .error .indexError
  else if step? = some 0 then .error .valueError
  else
    .ok ⟨packSelect b.val length (sliceIndices length start? stop? step?), none⟩

/-- Slice branch of `__setitem__`: the `stop > length` check, then one loop
accumulating the expanded input (`expanded`) and the combined destination
mask (`mask`) over `zip(range(length), indices)`, then
`self.value &= ~mask; self.value |= expanded`. -/
def setSlice (b : Bitfield) (start? stop? step? : Option Int) (v : Nat) :
    Except PyError Bitfield :=
  let length := b.len
  if stopTooBig stop? length then .error .indexError
  else if step? = some 0 then .error .valueError
  else
    let indices := sliceIndices length start? stop? step?
    let em := (List.zip (List.range length) indices).foldl
      (fun em p => (em.1 ||| (((v &&& (1 <<< p.1)) >>> p.1) <<< p.2), em.2 ||| (1 <<< p.2)))
      ((0 : Nat), (0 : Nat))
    let b1 : Bitfield := { b with value := andNot b.val em.2 }
    .ok { b1 with value := b1.val ||| em.1 }

/-- Slice branch of `__delitem__`.  There is no `stop > length` check here:
the source goes straight to `indices = list(range(length)); del indices[key]`.
Python's `del` on a list removes the positions the slice selects; since the
list holds exactly `0, ..., length - 1` at positions equal to their values,
the survivors are the values not selected, kept in ascending order.  The
surviving bits are repacked by the same loop as the slice read, and stored
(the width, if any, is untouched). -/
def delSlice (b : Bitfield) (start? stop? step? : Option Int) : Except PyError Bitfield :=
  if step? = some 0 then .error .valueError
  else
    let length := b.len
    let sel := sliceIndices length start? stop? step?
    let indices := (List.range length).filter (fun i => !(sel.contains i))
    .ok { b with value := packSelect b.val length indices }

/-- Reversal per `__reversed__`: defined as the range read `self[::-1]`. -/
def reversed (b : Bitfield) : Except PyError Bitfield :=
  b.getSlice none none (some (-1))

/-- Proof-side recursive form of the repacking loop: element `i` of `idxs`
contributes bit `idxs[i]` of `v` at position `s + i`. -/
def packFrom (v : Nat) (s : Nat) : List Nat → Nat
  | [] => 0
  | i :: is => (((v &&& (1 <<< i)) >>> i) <<< s) ||| packFrom v (s + 1) is

end Bitfield

namespace Chunker

/-- Python's `int.from_bytes(data, 'little')`: the little-endian value of a
byte string (bytes listed low-order first). -/
def fromBytesLE : List Nat → Nat
  | [] => 0
  | byte :: rest => byte + 256 * fromBytesLE rest

/-- Outcome of running the `chunk_file` generator to completion. -/
inductive ChunkResult where
  /-- The generator finished normally, having yielded these chunks. -/
  | yields (chunks : List Bitfield)
  /-- The generator raised error `e` after yielding `sofar`. -/
  | raises (sofar : List Bitfield) (e : Bitfield.PyError)
  /-- Fuel ran out (the Python loop does not terminate within the fuel;
  only possible for `bitfield_size = 0`, where the Python loop is infinite). -/
  | diverges
deriving DecidableEq, Repr

/-- One execution of the `while data:` loop of `chunk_file`: truthiness of a
`Bitfield` falls back to `len(data) != 0`; each iteration reads
`chunk = data[:bitfield_size]`, pins `chunk.width = bitfield_size`, yields it,
then shifts `data >>= bitfield_size` (an in-place shift of the stored value,
read through the `value` property). -/
def chunkLoop (w : Nat) : Nat → Bitfield → ChunkResult
  | 0, _ => .diverges
  | fuel + 1, data =>
    if data.len ≠ 0 then
      match data.getSlice none (some (w : Int)) none with
      | .error e => .raises [] e
      | .ok chunk =>
        match chunkLoop w fuel ⟨data.val >>> w, data.width⟩ with
        | .yields cs => .yields ({ chunk with width := some w } :: cs)
        | .raises cs e => .raises ({ chunk with width := some w } :: cs) e
        | .diverges => .diverges
    else .yields []

/-- The `chunk_file` generator: decode the whole byte source as a single
little-endian integer, wrap it in a dynamic-width `Bitfield`, and run the
chunking loop.  `n + 1` fuel is sufficient for any `bitfield_size ≥ 1`
since the working value strictly decreases. -/
def chunkFile (bytes : List Nat) (w : Nat) : ChunkResult :=
  let n := fromBytesLE bytes
  chunkLoop w (n + 1) ⟨n, none⟩

end Chunker

namespace Bitfield

/-! ## Theorems -/

/-! ### Facts about `bitLen` -/

theorem bitLenAux_eq_size : ∀ (fuel n : Nat), n ≤ fuel → bitLenAux fuel n = Nat.size n := by
  intro fuel
  induction fuel with
  | zero =>
    intro n hn
    interval_cases n
    simp [bitLenAux, Nat.size_zero]
  | succ fuel ih =>
    intro n hn
    match n with
    | 0 => simp [bitLenAux, Nat.size_zero]
    | m + 1 =>
      have hdiv : (m + 1) / 2 ≤ fuel := by
        have : (m + 1) / 2 < m + 1 := Nat.div_lt_self (by omega) (by omega)
        omega
      have hrec : Nat.size (m + 1) = Nat.size ((m + 1) / 2) + 1 := by
        have hb := Nat.bit_decomp (m + 1)
        have hne : Nat.bit (Nat.bodd (m + 1)) (Nat.div2 (m + 1)) ≠ 0 := by
          rw [hb]; omega
        have := Nat.size_bit hne
        rw [hb] at this
        rw [this, Nat.div2_val]
      rw [bitLenAux, ih _ hdiv, hrec]

theorem bitLen_eq_size (n : Nat) : bitLen n = Nat.size n :=
  bitLenAux_eq_size n n (Nat.le_refl n)

theorem bitLen_eq_zero {n : Nat} : bitLen n = 0 ↔ n = 0 := by
  rw [bitLen_eq_size, Nat.size_eq_zero]

theorem bitLen_le {m k : Nat} : bitLen m ≤ k ↔ m < 2 ^ k := by
  rw [bitLen_eq_size, Nat.size_le]

theorem lt_bitLen {k m : Nat} : k < bitLen m ↔ 2 ^ k ≤ m := by
  rw [bitLen_eq_size, Nat.lt_size]

theorem lt_two_pow_bitLen (n : Nat) : n < 2 ^ bitLen n := by
  rw [bitLen_eq_size]; exact Nat.lt_size_self n

/-- A non-zero value has its top visible bit set: bit `bitLen n - 1` is `true`. -/
theorem testBit_bitLen_sub_one {n : Nat} (hn : n ≠ 0) :
    n.testBit (bitLen n - 1) = true := by
  have hpos : 0 < bitLen n := by
    rcases Nat.eq_zero_or_pos (bitLen n) with h | h
    · exact absurd (bitLen_eq_zero.mp h) hn
    · exact h
  have hlow : 2 ^ (bitLen n - 1) ≤ n := lt_bitLen.mp (by omega)
  have hhigh : n < 2 ^ bitLen n := lt_two_pow_bitLen n
  rw [Nat.testBit_to_div_mod]
  have h2 : n / 2 ^ (bitLen n - 1) = 1 := by
    have hub : n < 2 ^ (bitLen n - 1) * 2 := by
      have hp : 2 ^ (bitLen n - 1) * 2 = 2 ^ (bitLen n - 1 + 1) := by
        rw [Nat.pow_succ]
      rw [hp]
      have he : bitLen n - 1 + 1 = bitLen n := by omega
      rw [he]; exact hhigh
    have h1 : 1 ≤ n / 2 ^ (bitLen n - 1) :=
      (Nat.one_le_div_iff (Nat.pos_pow_of_pos _ (by omega))).mpr hlow
    have h2' : n / 2 ^ (bitLen n - 1) < 2 := Nat.div_lt_of_lt_mul hub
    omega
  simp [h2]

/-! ### Facts about `val`, `len`, `normIdx`, `andNot` -/

theorem val_testBit (b : Bitfield) (j : Nat) :
    b.val.testBit j =
      (b.value.testBit j && match b.width with | some w => decide (j < w) | none => true) := by
  unfold val
  match h : b.width with
  | some w => simp [Nat.one_shiftLeft, Bool.and_comm]
  | none => simp

theorem val_lt_two_pow_width {b : Bitfield} {w : Nat} (h : b.width = some w) :
    b.val < 2 ^ w := by
  simp only [val, h, Nat.one_shiftLeft]
  have h1 : b.value &&& (2 ^ w - 1) ≤ 2 ^ w - 1 := Nat.and_le_right
  have h2 : 0 < (2 : Nat) ^ w := Nat.pos_pow_of_pos _ (by omega)
  omega

/-- Bits of the masked value at or above the width read as zero. -/
theorem val_testBit_ge_width {b : Bitfield} {w : Nat} (h : b.width = some w)
    {j : Nat} (hj : w ≤ j) : b.val.testBit j = false := by
  apply Nat.testBit_lt_two_pow
  calc b.val < 2 ^ w := val_lt_two_pow_width h
    _ ≤ 2 ^ j := Nat.pow_le_pow_right (by omega) hj

/-- The single-bit extraction `(v &&& (1 <<< k)) >>> k` equals the tested bit
as a 0/1 value. -/
theorem extract_bit_eq (v k : Nat) :
    (v &&& (1 <<< k)) >>> k = (v.testBit k).toNat := by
  apply Nat.eq_of_testBit_eq
  intro j
  rw [Nat.one_shiftLeft, Nat.testBit_shiftRight, Nat.testBit_and, Nat.testBit_two_pow]
  match hj : j with
  | 0 =>
    simp only [Nat.add_zero, decide_eq_true_eq]
    cases hb : v.testBit k <;> simp [hb]
  | j' + 1 =>
    have hne : ¬ (k = k + (j' + 1)) := by omega
    simp only [hne, decide_False, Bool.and_false]
    cases hb : v.testBit k <;> simp [Bool.toNat]
    · have h1 : (1 : Nat) < 2 ^ (j' + 1) := by
        have : (2 : Nat) ^ 1 ≤ 2 ^ (j' + 1) := Nat.pow_le_pow_right (by omega) (by omega)
        omega
      exact Nat.testBit_lt_two_pow h1

/-- Normalization sends a valid key strictly below the length. -/
theorem normIdx_lt {length : Nat} {key : Int}
    (hlo : -(length : Int) ≤ key) (hhi : key < (length : Int)) :
    normIdx length key < length := by
  unfold normIdx
  split <;> omega

@[simp] theorem testBit_andNot (x mask j : Nat) :
    (andNot x mask).testBit j = (x.testBit j && !(mask.testBit j)) := by
  unfold andNot
  rw [Nat.testBit_xor, Nat.testBit_and]
  cases x.testBit j <;> cases mask.testBit j <;> rfl

/-- A value `v ≤ 1` has no bits above bit 0. -/
theorem testBit_le_one {v : Nat} (hv : v ≤ 1) {m : Nat} (hm : 1 ≤ m) :
    v.testBit m = false := by
  apply Nat.testBit_lt_two_pow
  calc v < 2 ^ 1 := by omega
    _ ≤ 2 ^ m := Nat.pow_le_pow_right (by omega) hm

/-- Bit bookkeeping for the single-bit write: clearing bit `k` of `x` and
oring in `v <<< k` (with `v ≤ 1`) sets bit `k` to the low bit of `v` and
leaves every other bit of `x` alone. -/
theorem set_bit_core (x v k : Nat) (hv : v ≤ 1) (j : Nat) :
    (andNot x (1 <<< k) ||| (v <<< k)).testBit j =
      if j = k then v.testBit 0 else x.testBit j := by
  rw [Nat.testBit_or, testBit_andNot, Nat.one_shiftLeft, Nat.testBit_two_pow,
    Nat.testBit_shiftLeft]
  by_cases hj : j = k
  · subst hj
    simp
  · have hne : ¬ (k = j) := fun h => hj h.symm
    by_cases hk : k ≤ j
    · have hzero : v.testBit (j - k) = false := testBit_le_one hv (by omega)
      simp [hne, hj, hk, hzero]
    · have hge : ¬ (j ≥ k) := hk
      simp [hne, hj, hge]

/-! ### The repacking loop -/

theorem testBit_toNat_zero (b : Bool) : (b.toNat).testBit 0 = b := by
  cases b <;> decide

theorem testBit_toNat_pos (b : Bool) {m : Nat} (hm : 1 ≤ m) : (b.toNat).testBit m = false := by
  cases b
  · exact Nat.zero_testBit m
  · exact testBit_le_one (by decide) hm

/-- The fold of the repacking loop over `zip (range' s n) idxs` equals the
accumulator ored with the recursive packing, provided the `range'` side is at
least as long as `idxs`. -/
theorem zip_range'_foldl (v : Nat) :
    ∀ (idxs : List Nat) (n s acc : Nat), idxs.length ≤ n →
      (List.zip (List.range' s n) idxs).foldl
        (fun val p => val ||| (((v &&& (1 <<< p.2)) >>> p.2) <<< p.1)) acc
        = acc ||| packFrom v s idxs := by
  intro idxs
  induction idxs with
  | nil =>
    intro n s acc _
    simp [packFrom]
  | cons i is ih =>
    intro n s acc hlen
    match n with
    | 0 => simp at hlen
    | n + 1 =>
      rw [List.range'_succ]
      simp only [List.zip_cons_cons, List.foldl_cons]
      rw [ih n (s + 1) _ (by simpa using hlen), packFrom, Nat.or_assoc]

theorem packSelect_eq_packFrom (v n : Nat) (idxs : List Nat) (h : idxs.length ≤ n) :
    packSelect v n idxs = packFrom v 0 idxs := by
  unfold packSelect
  rw [List.range_eq_range', zip_range'_foldl v idxs n 0 0 h, Nat.zero_or]

/-- Bit `j` of the recursive packing (started at offset `s`): bit
`idxs[j - s]` of `v` if `j` lands inside the packed range, zero otherwise. -/
theorem packFrom_testBit (v : Nat) :
    ∀ (idxs : List Nat) (s j : Nat),
      (packFrom v s idxs).testBit j =
        if h : s ≤ j ∧ j - s < idxs.length then v.testBit (idxs.get ⟨j - s, h.2⟩)
        else false := by
  intro idxs
  induction idxs with
  | nil =>
    intro s j
    simp [packFrom]
  | cons i is ih =>
    intro s j
    rw [packFrom, Nat.testBit_or, ih (s + 1) j, extract_bit_eq, Nat.testBit_shiftLeft]
    by_cases hs : s ≤ j
    · by_cases hj : j = s
      · subst hj
        have h1 : j - j = 0 := by omega
        have h2 : ¬ (j + 1 ≤ j ∧ j - (j + 1) < is.length) := by omega
        have h3 : j ≤ j ∧ j - j < (i :: is).length := by
          simp only [List.length_cons]; omega
        rw [dif_neg h2, dif_pos h3]
        have h4 : (i :: is).get ⟨j - j, h3.2⟩ = i := by
          rw [show (⟨j - j, h3.2⟩ : Fin (i :: is).length) = ⟨0, by simp⟩ from
            Fin.mk_eq_mk.mpr (by omega)]
          rfl
        rw [h4, h1]
        simp only [ge_iff_le, Nat.le_refl, decide_True, Bool.true_and, Bool.or_false]
        exact testBit_toNat_zero (v.testBit i)
      · have h1 : 1 ≤ j - s := by omega
        rw [testBit_toNat_pos _ h1]
        simp only [Bool.and_false, Bool.false_or]
        by_cases h4 : s + 1 ≤ j ∧ j - (s + 1) < is.length
        · have h3 : s ≤ j ∧ j - s < (i :: is).length := by
            simp only [List.length_cons]; omega
          rw [dif_pos h4, dif_pos h3]
          congr 1
          have h5 : (⟨j - s, h3.2⟩ : Fin (i :: is).length) =
              ⟨(j - (s + 1)) + 1, by simp only [List.length_cons]; omega⟩ :=
            Fin.mk_eq_mk.mpr (by omega)
          rw [h5, List.get_cons_succ]
        · have h3 : ¬ (s ≤ j ∧ j - s < (i :: is).length) := by
            simp only [List.length_cons]; omega
          rw [dif_neg h4, dif_neg h3]
    · have h2 : ¬ (s + 1 ≤ j ∧ j - (s + 1) < is.length) := by omega
      have h3 : ¬ (s ≤ j ∧ j - s < (i :: is).length) := by
        simp only [List.length_cons]; omega
      have h1 : ¬ (j ≥ s) := hs
      simp [h1, h2, h3]

/-- Bit `j` of the repacking loop's result: bit `idxs[j]` of `v` when
`j < idxs.length`, zero otherwise (requires `idxs.length ≤ length`, which
holds for every index list Python slicing produces). -/
theorem packSelect_testBit (v n : Nat) (idxs : List Nat) (h : idxs.length ≤ n) (j : Nat) :
    (packSelect v n idxs).testBit j =
      if hj : j < idxs.length then v.testBit (idxs.get ⟨j, hj⟩) else false := by
  rw [packSelect_eq_packFrom v n idxs h, packFrom_testBit]
  simp

theorem packSelect_lt (v n : Nat) (idxs : List Nat) (h : idxs.length ≤ n) :
    packSelect v n idxs < 2 ^ idxs.length := by
  apply Nat.lt_pow_two_of_testBit
  intro i hi
  rw [packSelect_testBit v n idxs h i, dif_neg (by omega)]

/-! ### Facts about Python slicing -/

theorem sliceBounds_of_pos (n : Nat) (start? stop? : Option Int) {step : Int} (h : 0 < step) :
    0 ≤ (sliceBounds n start? stop? step).1 ∧ (sliceBounds n start? stop? step).1 ≤ (n : Int) ∧
    0 ≤ (sliceBounds n start? stop? step).2 ∧ (sliceBounds n start? stop? step).2 ≤ (n : Int) := by
  simp only [sliceBounds]
  rcases start? with _ | s <;> rcases stop? with _ | e <;>
    dsimp only <;> split_ifs <;> omega

theorem sliceBounds_of_neg (n : Nat) (start? stop? : Option Int) {step : Int} (h : step < 0) :
    -1 ≤ (sliceBounds n start? stop? step).1 ∧
    (sliceBounds n start? stop? step).1 ≤ (n : Int) - 1 ∧
    -1 ≤ (sliceBounds n start? stop? step).2 ∧
    (sliceBounds n start? stop? step).2 ≤ (n : Int) - 1 := by
  simp only [sliceBounds]
  rcases start? with _ | s <;> rcases stop? with _ | e <;>
    dsimp only <;> split_ifs <;> omega

theorem sliceIndices_length (n : Nat) (start? stop? step? : Option Int) :
    (sliceIndices n start? stop? step?).length =
      sliceCount (sliceBounds n start? stop? (step?.getD 1)).1
        (sliceBounds n start? stop? (step?.getD 1)).2 (step?.getD 1) := by
  simp [sliceIndices]

theorem sliceIndices_get (n : Nat) (start? stop? step? : Option Int) (i : Nat)
    (hi : i < (sliceIndices n start? stop? step?).length) :
    (sliceIndices n start? stop? step?).get ⟨i, hi⟩ =
      ((sliceBounds n start? stop? (step?.getD 1)).1 + (step?.getD 1) * (i : Int)).toNat := by
  simp [sliceIndices, List.get_eq_getElem]

theorem sliceIndices_length_le (n : Nat) (start? stop? step? : Option Int) :
    (sliceIndices n start? stop? step?).length ≤ n := by
  rw [sliceIndices_length]
  set st := step?.getD 1 with hst
  set p := sliceBounds n start? stop? st with hp
  unfold sliceCount
  split_ifs with h1 h2
  · obtain ⟨hstpos, hlt⟩ := h1
    obtain ⟨ha, hb, hc, hd⟩ := sliceBounds_of_pos n start? stop? hstpos
    rw [← hp] at ha hb hc hd
    have hdle : (p.2 - p.1 - 1).toNat / st.toNat ≤ (p.2 - p.1 - 1).toNat :=
      Nat.div_le_self _ _
    omega
  · obtain ⟨hstneg, hlt⟩ := h2
    obtain ⟨ha, hb, hc, hd⟩ := sliceBounds_of_neg n start? stop? hstneg
    rw [← hp] at ha hb hc hd
    have hdle : (p.1 - p.2 - 1).toNat / (-st).toNat ≤ (p.1 - p.2 - 1).toNat :=
      Nat.div_le_self _ _
    omega
  · omega

/-- Every position visited by a slice is a genuine index: non-negative (as an
integer) and strictly below the sequence length. -/
theorem sliceIndices_elem_bounds (n : Nat) (start? stop? step? : Option Int) (i : Nat)
    (hi : i < (sliceIndices n start? stop? step?).length) :
    0 ≤ (sliceBounds n start? stop? (step?.getD 1)).1 + (step?.getD 1) * (i : Int) ∧
    (sliceBounds n start? stop? (step?.getD 1)).1 + (step?.getD 1) * (i : Int) < (n : Int) := by
  rw [sliceIndices_length] at hi
  set st := step?.getD 1 with hst
  set p := sliceBounds n start? stop? st with hp
  unfold sliceCount at hi
  split_ifs at hi with h1 h2
  · obtain ⟨hstpos, hlt⟩ := h1
    obtain ⟨ha, hb, hc, hd⟩ := sliceBounds_of_pos n start? stop? hstpos
    rw [← hp] at ha hb hc hd
    have hkey : st * (i : Int) ≤ p.2 - p.1 - 1 := by
      have h3 : i ≤ (p.2 - p.1 - 1).toNat / st.toNat := by omega
      have h4 : st.toNat * i ≤ st.toNat * ((p.2 - p.1 - 1).toNat / st.toNat) :=
        Nat.mul_le_mul_left _ h3
      have h5 : st.toNat * ((p.2 - p.1 - 1).toNat / st.toNat) ≤ (p.2 - p.1 - 1).toNat := by
        rw [Nat.mul_comm]
        exact Nat.div_mul_le_self _ _
      have h6 : st.toNat * i ≤ (p.2 - p.1 - 1).toNat := le_trans h4 h5
      have h7 : ((st.toNat * i : Nat) : Int) = st * (i : Int) := by
        push_cast
        rw [Int.toNat_of_nonneg (by omega : (0 : Int) ≤ st)]
      omega
    have hnn : 0 ≤ st * (i : Int) := mul_nonneg (by omega) (by omega)
    omega
  · obtain ⟨hstneg, hlt⟩ := h2
    obtain ⟨ha, hb, hc, hd⟩ := sliceBounds_of_neg n start? stop? hstneg
    rw [← hp] at ha hb hc hd
    have hkey : (-st) * (i : Int) ≤ p.1 - p.2 - 1 := by
      have h3 : i ≤ (p.1 - p.2 - 1).toNat / (-st).toNat := by omega
      have h4 : (-st).toNat * i ≤ (-st).toNat * ((p.1 - p.2 - 1).toNat / (-st).toNat) :=
        Nat.mul_le_mul_left _ h3
      have h5 : (-st).toNat * ((p.1 - p.2 - 1).toNat / (-st).toNat) ≤
          (p.1 - p.2 - 1).toNat := by
        rw [Nat.mul_comm]
        exact Nat.div_mul_le_self _ _
      have h6 : (-st).toNat * i ≤ (p.1 - p.2 - 1).toNat := le_trans h4 h5
      have h7 : (((-st).toNat * i : Nat) : Int) = (-st) * (i : Int) := by
        push_cast
        rw [Int.toNat_of_nonneg (by omega : (0 : Int) ≤ -st)]
      omega
    rw [neg_mul] at hkey
    have hnn : 0 ≤ (-st) * (i : Int) := mul_nonneg (by omega) (by omega)
    rw [neg_mul] at hnn
    omega
  · omega

/-- Every position a slice selects is strictly below the sequence length. -/
theorem sliceIndices_mem_lt {n : Nat} {start? stop? step? : Option Int} {x : Nat}
    (hx : x ∈ sliceIndices n start? stop? step?) : x < n := by
  unfold sliceIndices at hx
  rcases List.mem_map.mp hx with ⟨i, hi, rfl⟩
  rw [List.mem_range] at hi
  have hb := sliceIndices_elem_bounds n start? stop? step? i
    (by rw [sliceIndices_length]; exact hi)
  omega

/-- With a non-zero step, the selected positions are pairwise distinct. -/
theorem sliceIndices_nodup (n : Nat) (start? stop? step? : Option Int)
    (hstep : step?.getD 1 ≠ 0) : (sliceIndices n start? stop? step?).Nodup := by
  unfold sliceIndices
  apply List.Nodup.map_on ?_ (List.nodup_range _)
  intro i hi j hj heq
  rw [List.mem_range] at hi hj
  have hbi := sliceIndices_elem_bounds n start? stop? step? i
    (by rw [sliceIndices_length]; exact hi)
  have hbj := sliceIndices_elem_bounds n start? stop? step? j
    (by rw [sliceIndices_length]; exact hj)
  have hmul : (step?.getD 1) * (i : Int) = (step?.getD 1) * (j : Int) := by omega
  have hij : (i : Int) = (j : Int) := mul_left_cancel₀ hstep hmul
  omega

/-! ### Claim theorems -/

/-- C6: an integer-key read returns a 1-bit `Bitfield` (width unset) holding
the bit of the width-masked value at the normalized position (`k` for
`0 ≤ k < len`, `len + k` for `-len ≤ k < 0`), and raises `IndexOutOfRange`
exactly when `k ≥ len` or `k < -len`. -/
theorem getitem_int_spec (b : Bitfield) (k : Int) :
    (b.getInt k = .error .indexError ↔ (k ≥ (b.len : Int) ∨ k < -(b.len : Int))) ∧
    (∀ r, b.getInt k = .ok r →
      r = ⟨(b.val.testBit
        ((if k < 0 then (b.len : Int) + k else k).toNat)).toNat, none⟩) := by
  constructor
  · constructor
    · intro h
      by_contra hc
      simp [getInt, hc] at h
    · intro h
      simp [getInt, h]
  · intro r hr
    by_cases h : (k ≥ (b.len : Int) ∨ k < -(b.len : Int))
    · simp [getInt, h] at hr
    · simp only [getInt, if_neg h] at hr
      rw [Except.ok.injEq] at hr
      rw [← hr]
      have hno : ¬ (k ≥ (b.len : Int)) ∧ ¬ (k < -(b.len : Int)) := by
        constructor <;> intro hcon <;> exact h (by tauto)
      have hpos : normIdx b.len k = (if k < 0 then (b.len : Int) + k else k).toNat := by
        unfold normIdx
        split <;> omega
      rw [extract_bit_eq, hpos]

theorem getitem_int_spec_witness :
    (⟨1, none⟩ : Bitfield) =
      ⟨((Bitfield.val ⟨10, none⟩).testBit
        ((if (-1 : Int) < 0 then ((Bitfield.len ⟨10, none⟩ : Int) + (-1))
          else (-1 : Int)).toNat)).toNat, none⟩ :=
  (getitem_int_spec ⟨10, none⟩ (-1)).2 ⟨1, none⟩ (by decide)

/-- C7: for every `Bitfield` state, zero length forces a zero read value, and
in fixed-width mode with width `N` every read of `value` lies below `2 ^ N`
whatever the stored integer is; both facts hold of all states, so they are
preserved by every operation. -/
theorem read_invariants (b : Bitfield) :
    (b.len = 0 → b.val = 0) ∧ (∀ N, b.width = some N → b.val < 2 ^ N) := by
  constructor
  · intro h0
    match hw : b.width with
    | none =>
      simp only [len, hw] at h0
      simp only [val, hw]
      exact bitLen_eq_zero.mp h0
    | some w =>
      simp only [len, hw] at h0
      subst h0
      have hbound := val_lt_two_pow_width hw
      simpa using hbound
  · intro N hN
    exact val_lt_two_pow_width hN

theorem read_invariants_witness :
    Bitfield.val ⟨0, none⟩ = 0 ∧ Bitfield.val ⟨12, some 2⟩ < 2 ^ 2 :=
  ⟨(read_invariants ⟨0, none⟩).1 (by decide), (read_invariants ⟨12, some 2⟩).2 2 (by decide)⟩

/-- C9: every `Bitfield` returned by an indexed read — integer key, range
key, or the `[::-1]` form used by `reversed()` — has its width unset
(dynamic mode), whatever the mode of the source. -/
theorem read_results_dynamic :
    (∀ (b : Bitfield) (k : Int) (r : Bitfield), b.getInt k = .ok r → r.width = none) ∧
    (∀ (b : Bitfield) (start? stop? step? : Option Int) (r : Bitfield),
      b.getSlice start? stop? step? = .ok r → r.width = none) ∧
    (∀ (b r : Bitfield), b.reversed = .ok r → r.width = none) := by
  have hslice : ∀ (b : Bitfield) (start? stop? step? : Option Int) (r : Bitfield),
      b.getSlice start? stop? step? = .ok r → r.width = none := by
    intro b start? stop? step? r hr
    by_cases h1 : stopTooBig stop? b.len
    · simp [getSlice, h1] at hr
    · by_cases h2 : step? = some 0
      · simp [getSlice, h1, h2] at hr
      · simp only [getSlice, h1, Bool.false_eq_true, if_false, h2, if_neg] at hr
        rw [Except.ok.injEq] at hr
        rw [← hr]
  refine ⟨?_, hslice, ?_⟩
  · intro b k r hr
    by_cases h : (k ≥ (b.len : Int) ∨ k < -(b.len : Int))
    · simp [getInt, h] at hr
    · simp only [getInt, if_neg h] at hr
      rw [Except.ok.injEq] at hr
      rw [← hr]
  · intro b r hr
    exact hslice b none none (some (-1)) r hr

theorem read_results_dynamic_witness :
    (⟨6, none⟩ : Bitfield).width = none :=
  read_results_dynamic.2.1 ⟨6, some 3⟩ none none none ⟨6, none⟩ (by decide)

/-- C4 counterexample: an indexed delete with a range whose `stop` (5)
exceeds the length (1) does not raise `IndexOutOfRange`; it performs the
deletion (here clearing the sole bit), contradicting the claim that all three
indexed operations raise. -/
theorem delete_stop_counterexample :
    (5 : Int) > (Bitfield.len ⟨1, none⟩ : Int) ∧
    Bitfield.delSlice ⟨1, none⟩ (some 0) (some 5) none = .ok ⟨0, none⟩ := by
  decide

/-- C4 amended: an indexed read or write with a range key whose `stop`
exceeds the length raises `IndexOutOfRange` synchronously (before any
mutation, so value and width are untouched), but an indexed delete performs
no such check: for any non-zero step it clamps the range Python-style and
carries the deletion out. -/
theorem range_stop_check_amended (b : Bitfield) (start? step? : Option Int) (s : Int)
    (v : Nat) (hs : s > (b.len : Int)) (hstep : step? ≠ some 0) :
    b.getSlice start? (some s) step? = .error .indexError ∧
    b.setSlice start? (some s) step? v = .error .indexError ∧
    ∃ b', b.delSlice start? (some s) step? = .ok b' := by
  have hbig : stopTooBig (some s) b.len = true := by
    simp only [stopTooBig]
    exact decide_eq_true hs
  refine ⟨?_, ?_, ?_⟩
  · simp [getSlice, hbig]
  · simp [setSlice, hbig]
  · refine ⟨⟨packSelect b.val b.len ((List.range b.len).filter
        (fun i => !((sliceIndices b.len start? (some s) step?).contains i))), b.width⟩, ?_⟩
    unfold delSlice
    rw [if_neg hstep]

theorem range_stop_check_amended_witness :
    Bitfield.getSlice ⟨1, none⟩ (some 0) (some 5) none = .error .indexError ∧
    Bitfield.setSlice ⟨1, none⟩ (some 0) (some 5) none 3 = .error .indexError ∧
    ∃ b', Bitfield.delSlice ⟨1, none⟩ (some 0) (some 5) none = .ok b' :=
  range_stop_check_amended ⟨1, none⟩ (some 0) none 5 3 (by decide) (by decide)

/-- C1 counterexample: the single-bit write ORs in the whole input, not just
its low bit.  Writing `v = 2` at index 0 of `Bitfield(0b100)` yields `0b110`:
bit 0 does equal the low bit of `v`, but bit 1 flips from 0 to 1, so "every
other bit unchanged" fails. -/
theorem setitem_int_counterexample :
    Bitfield.setInt ⟨4, none⟩ 0 2 = .ok ⟨6, none⟩ ∧
    normIdx (Bitfield.len ⟨4, none⟩) 0 = 0 ∧
    (Bitfield.val ⟨6, none⟩).testBit 1 = true ∧
    (Bitfield.val ⟨4, none⟩).testBit 1 = false := by
  decide

/-- Fixed-width variant of `set_bit_core`: the same write pipeline with the
width mask applied after the clearing step and after the final OR. -/
theorem set_bit_core_masked (x v k w : Nat) (hv : v ≤ 1) (hkw : k < w)
    (hx : x < 2 ^ w) (j : Nat) :
    ((((andNot x (1 <<< k)) &&& ((1 <<< w) - 1)) ||| (v <<< k)) &&&
        ((1 <<< w) - 1)).testBit j =
      if j = k then v.testBit 0 else x.testBit j := by
  have hcore := set_bit_core x v k hv j
  rw [Nat.testBit_or, testBit_andNot, Nat.one_shiftLeft] at hcore
  rw [Nat.one_shiftLeft, Nat.one_shiftLeft]
  simp only [Nat.testBit_and, Nat.testBit_or, testBit_andNot,
    Nat.testBit_two_pow_sub_one]
  by_cases hjw : j < w
  · simp only [hjw, decide_True, Bool.and_true]
    exact hcore
  · have h1 : x.testBit j = false := by
      apply Nat.testBit_lt_two_pow
      calc x < 2 ^ w := hx
        _ ≤ 2 ^ j := Nat.pow_le_pow_right (by omega) (by omega)
    have h2 : j ≠ k := by omega
    simp [hjw, h2, h1]

/-- C1 amended: for an input `v` with no bits above the low bit (`v ≤ 1` —
forced by the counterexample, since higher input bits are ORed into higher
positions), the indexed write `b[k] = v` with a valid integer key puts the
low bit of `v` at the normalized position and leaves every other bit of the
read value unchanged; the width is untouched. -/
theorem setitem_int_amended (b : Bitfield) (key : Int) (v : Nat) (hv : v ≤ 1)
    (hlo : -(b.len : Int) ≤ key) (hhi : key < (b.len : Int)) :
    ∃ b', b.setInt key v = .ok b' ∧ b'.width = b.width ∧
      b'.val.testBit (normIdx b.len key) = v.testBit 0 ∧
      ∀ j, j ≠ normIdx b.len key → b'.val.testBit j = b.val.testBit j := by
  have hcond : ¬ (key ≥ (b.len : Int) ∨ key < -(b.len : Int)) := by omega
  have hklt : normIdx b.len key < b.len := normIdx_lt hlo hhi
  set k := normIdx b.len key with hk
  have hret : b.setInt key v =
      .ok ⟨(Bitfield.mk (andNot b.val (1 <<< k)) b.width).val ||| (v <<< k), b.width⟩ := by
    simp only [setInt]
    rw [if_neg hcond]
  have hbits : ∀ j : Nat,
      (Bitfield.mk ((Bitfield.mk (andNot b.val (1 <<< k)) b.width).val ||| (v <<< k))
          b.width).val.testBit j =
        if j = k then v.testBit 0 else b.val.testBit j := by
    intro j
    rcases hw : b.width with _ | w
    · simp only [hw, val]
      have hcore := set_bit_core b.val v k hv j
      simp only [val, hw] at hcore
      exact hcore
    · have hkw : k < w := by
        have hlen : b.len = w := by simp [len, hw]
        omega
      simp only [hw, val]
      have hcore := set_bit_core_masked b.val v k w hv hkw (val_lt_two_pow_width hw) j
      simp only [val, hw] at hcore
      exact hcore
  refine ⟨_, hret, rfl, ?_, ?_⟩
  · rw [hbits k, if_pos rfl]
  · intro j hj
    rw [hbits j, if_neg hj]

theorem setitem_int_amended_witness :
    ∃ b', Bitfield.setInt ⟨10, none⟩ 1 0 = .ok b' ∧
      b'.width = (⟨10, none⟩ : Bitfield).width ∧
      b'.val.testBit (normIdx (Bitfield.len ⟨10, none⟩) 1) = (0 : Nat).testBit 0 ∧
      ∀ j, j ≠ normIdx (Bitfield.len ⟨10, none⟩) 1 →
        b'.val.testBit j = (Bitfield.val ⟨10, none⟩).testBit j :=
  setitem_int_amended ⟨10, none⟩ 1 0 (by decide) (by decide) (by decide)

/-- Splitting a list's length by a Boolean predicate. -/
theorem length_filter_not {α : Type} (p : α → Bool) (l : List α) :
    (l.filter (fun a => !(p a))).length + (l.filter p).length = l.length := by
  induction l with
  | nil => rfl
  | cons a t ih =>
    by_cases h : p a <;> simp [List.filter_cons, h] <;> omega

/-- The positions of `range n` lying in a duplicate-free list `sel` of
positions below `n` are exactly `sel`'s elements, so the filter has length
`sel.length`. -/
theorem length_filter_contains {n : Nat} {sel : List Nat} (hnd : sel.Nodup)
    (hlt : ∀ x ∈ sel, x < n) :
    ((List.range n).filter (fun i => sel.contains i)).length = sel.length := by
  have hperm : List.Perm ((List.range n).filter (fun i => sel.contains i)) sel := by
    apply (List.perm_ext_iff_of_nodup (List.Nodup.filter _ (List.nodup_range n)) hnd).mpr
    intro a
    simp only [List.mem_filter, List.mem_range, List.contains_eq_any_beq, List.any_eq_true,
      beq_iff_eq]
    constructor
    · rintro ⟨_, x, hx, rfl⟩
      exact hx
    · intro h
      exact ⟨hlt a h, a, h, rfl⟩
  exact hperm.length_eq

/-- In a strictly increasing list, the last entry is the maximum. -/
theorem sorted_get_last_eq_max {l : List Nat} (hp : l.Pairwise (· < ·)) {x : Nat}
    (hx : x ∈ l) (hub : ∀ y ∈ l, y ≤ x) (h : l.length - 1 < l.length) :
    l.get ⟨l.length - 1, h⟩ = x := by
  obtain ⟨⟨k, hk⟩, hgk⟩ := List.mem_iff_get.mp hx
  have hmono := List.pairwise_iff_get.mp hp
  by_cases hkl : k < l.length - 1
  · exfalso
    have h1 : l.get ⟨k, hk⟩ < l.get ⟨l.length - 1, h⟩ :=
      hmono ⟨k, hk⟩ ⟨l.length - 1, h⟩ (by exact hkl)
    have h2 : l.get ⟨l.length - 1, h⟩ ≤ x := hub _ (l.get_mem _ _)
    rw [hgk] at h1
    omega
  · have hke : k = l.length - 1 := by omega
    subst hke
    exact hgk

/-- C5 counterexample: a slice deletion that removes the most significant
bit.  `del Bitfield(0b100)[2:3]` deletes one selected position, but the
length drops from 3 to 0, not to 2: the two surviving zero bits repack to
the value 0, whose dynamic bit-length is 0. -/
theorem delitem_length_counterexample :
    Bitfield.delSlice ⟨4, none⟩ (some 2) (some 3) none = .ok ⟨0, none⟩ ∧
    Bitfield.len ⟨0, none⟩ ≠
      Bitfield.len ⟨4, none⟩ -
        (sliceIndices (Bitfield.len ⟨4, none⟩) (some 2) (some 3) none).length := by
  decide

/-- C5 amended: for a dynamic-width `Bitfield` and a range key with non-zero
step that does not select the top bit position `len - 1` (both restrictions
forced by counterexamples: fixed widths are never auto-shrunk, and deleting
the top set bit collapses the dynamic length further), deletion shrinks the
length by exactly the number of selected positions. -/
theorem delitem_slice_length_amended (b : Bitfield) (start? stop? step? : Option Int)
    (hdyn : b.width = none) (hstep : step?.getD 1 ≠ 0)
    (htop : b.len - 1 ∉ sliceIndices b.len start? stop? step?) :
    ∃ b', b.delSlice start? stop? step? = .ok b' ∧
      b'.len = b.len - (sliceIndices b.len start? stop? step?).length := by
  have hstep0 : ¬ step? = some 0 := by
    intro hc
    rw [hc] at hstep
    exact hstep rfl
  have hok : b.delSlice start? stop? step? =
      .ok ⟨packSelect b.val b.len ((List.range b.len).filter
        (fun i => !((sliceIndices b.len start? stop? step?).contains i))), b.width⟩ := by
    unfold delSlice
    rw [if_neg hstep0]
  refine ⟨_, hok, ?_⟩
  set n := b.len with hn
  set sel := sliceIndices n start? stop? step? with hsel
  set L := (List.range n).filter (fun i => !(sel.contains i)) with hL
  have hnd : sel.Nodup := sliceIndices_nodup n start? stop? step? hstep
  have hltn : ∀ x ∈ sel, x < n := fun x hx => sliceIndices_mem_lt hx
  have hsum := length_filter_not (fun i => sel.contains i) (List.range n)
  rw [length_filter_contains hnd hltn, List.length_range] at hsum
  have hLlen : L.length = n - sel.length := by
    rw [hL]
    omega
  have hval : b.val = b.value := by simp [val, hdyn]
  have hnval : n = bitLen b.value := by simp [hn, len, hdyn]
  by_cases hz : b.value = 0
  · have hn0 : n = 0 := by
      rw [hnval, hz]
      decide
    have hsel0 : sel.length = 0 := by
      have := sliceIndices_length_le n start? stop? step?
      rw [← hsel] at this
      omega
    have hL0 : L = [] := by
      rw [hL, hn0]
      rfl
    rw [hL0, hn0, hdyn]
    have hp0 : packSelect b.val 0 [] = 0 := rfl
    simp only [len, hp0]
    have hb0 : bitLen 0 = 0 := rfl
    rw [hb0]
    omega
  · have hnpos : 0 < n := by
      rw [hnval]
      rcases Nat.eq_zero_or_pos (bitLen b.value) with h | h
      · exact absurd (bitLen_eq_zero.mp h) hz
      · exact h
    have htopbit : b.val.testBit (n - 1) = true := by
      rw [hval, hnval]
      exact testBit_bitLen_sub_one hz
    have hmemL : (n - 1) ∈ L := by
      rw [hL, List.mem_filter]
      refine ⟨List.mem_range.mpr (by omega), ?_⟩
      show (!(List.elem (n - 1) sel)) = true
      rw [List.elem_eq_mem, decide_eq_false htop]
      rfl
    have hub : ∀ y ∈ L, y ≤ n - 1 := by
      intro y hy
      have hyr : y ∈ List.range n := List.mem_of_mem_filter hy
      rw [List.mem_range] at hyr
      omega
    have hpw : L.Pairwise (· < ·) :=
      List.Pairwise.sublist (List.filter_sublist _) (List.pairwise_lt_range n)
    have hLpos : 0 < L.length := List.length_pos_of_mem hmemL
    have hlast : L.get ⟨L.length - 1, by omega⟩ = n - 1 :=
      sorted_get_last_eq_max hpw hmemL hub _
    have hLle : L.length ≤ n := by omega
    have hpack_top : (packSelect b.val n L).testBit (L.length - 1) = true := by
      rw [packSelect_testBit b.val n L hLle, dif_pos (by omega : L.length - 1 < L.length)]
      rw [hlast]
      exact htopbit
    have hpack_lt : packSelect b.val n L < 2 ^ L.length := packSelect_lt _ _ _ hLle
    have hlen' : bitLen (packSelect b.val n L) = L.length := by
      have h1 : bitLen (packSelect b.val n L) ≤ L.length := bitLen_le.mpr hpack_lt
      have h2 : L.length - 1 < bitLen (packSelect b.val n L) :=
        lt_bitLen.mpr (Nat.testBit_implies_ge hpack_top)
      omega
    simp only [len, hdyn]
    rw [hlen', hLlen]

theorem delitem_slice_length_amended_witness :
    ∃ b', Bitfield.delSlice ⟨5, none⟩ (some 0) (some 1) none = .ok b' ∧
      b'.len = Bitfield.len ⟨5, none⟩ -
        (sliceIndices (Bitfield.len ⟨5, none⟩) (some 0) (some 1) none).length :=
  delitem_slice_length_amended ⟨5, none⟩ (some 0) (some 1) none rfl (by decide) (by decide)

/-- C3: a range read (other than the reserved bare `[::-1]` form), when it
returns, yields a fresh `Bitfield` whose bit `j` is bit `i_j` of the source's
width-masked value, where `i_0, i_1, ...` are the positions Python slicing
selects (ascending for positive step, descending for negative step), packed
contiguously from bit 0; in particular `Bitfield(0b11001100)[1::3] == 0b100`
and `Bitfield(0b1111)[::2] == 0b11`. -/
theorem getitem_slice_spec :
    (∀ (b : Bitfield) (start? stop? step? : Option Int) (r : Bitfield),
      ¬(start? = none ∧ stop? = none ∧ step? = some (-1)) →
      b.getSlice start? stop? step? = .ok r →
      ∀ j : Nat, r.value.testBit j =
        if hj : j < (sliceIndices b.len start? stop? step?).length
        then b.val.testBit ((sliceIndices b.len start? stop? step?).get ⟨j, hj⟩)
        else false) ∧
    Bitfield.getSlice ⟨0b11001100, none⟩ (some 1) none (some 3) = .ok ⟨0b100, none⟩ ∧
    Bitfield.getSlice ⟨0b1111, none⟩ none none (some 2) = .ok ⟨0b11, none⟩ := by
  refine ⟨?_, by decide, by decide⟩
  intro b start? stop? step? r hres hok j
  by_cases h1 : stopTooBig stop? b.len
  · simp [getSlice, h1] at hok
  · by_cases h2 : step? = some 0
    · simp [getSlice, h1, h2] at hok
    · simp only [getSlice, h1, Bool.false_eq_true, if_false, h2, if_neg] at hok
      rw [Except.ok.injEq] at hok
      rw [← hok]
      exact packSelect_testBit b.val b.len _ (sliceIndices_length_le _ _ _ _) j

/-- Masking to a width that already bounds the value is the identity. -/
theorem val_of_lt {v N : Nat} (hv : v < 2 ^ N) : Bitfield.val ⟨v, some N⟩ = v := by
  simp only [val, Nat.one_shiftLeft]
  apply Nat.eq_of_testBit_eq
  intro j
  rw [Nat.testBit_and, Nat.testBit_two_pow_sub_one]
  by_cases hj : j < N
  · simp [hj]
  · have hvj : v.testBit j = false := by
      apply Nat.testBit_lt_two_pow
      calc v < 2 ^ N := hv
        _ ≤ 2 ^ j := Nat.pow_le_pow_right (by omega) (by omega)
    simp [hj, hvj]

/-- The bare `[::-1]` slice over a length-`N` sequence visits
`N - 1, N - 2, ..., 0`. -/
theorem sliceIndices_reverse_length (N : Nat) :
    (sliceIndices N none none (some (-1))).length = N := by
  rw [sliceIndices_length]
  have hb : sliceBounds N none none (-1) = ((N : Int) - 1, -1) := by
    simp only [sliceBounds]
    norm_num
  simp only [Option.getD_some, hb]
  unfold sliceCount
  split_ifs with h1 h2
  · omega
  · have : (-(-1) : Int).toNat = 1 := by norm_num
    rw [this, Nat.div_one]
    omega
  · omega

theorem sliceIndices_reverse_get (N : Nat) (j : Nat)
    (hj : j < (sliceIndices N none none (some (-1))).length) :
    (sliceIndices N none none (some (-1))).get ⟨j, hj⟩ = N - 1 - j := by
  rw [sliceIndices_get]
  have hb : sliceBounds N none none (-1) = ((N : Int) - 1, -1) := by
    simp only [sliceBounds]
    norm_num
  have hjN : j < N := by
    rw [sliceIndices_reverse_length] at hj
    exact hj
  simp only [Option.getD_some, hb]
  omega

/-- One reversal of a fixed-width-`N` field whose value fits the width:
the result is dynamic and holds the exact bit reversal of the `N`-bit
string. -/
theorem reversed_fixed (N x : Nat) (hx : x < 2 ^ N) :
    ∃ r : Nat, Bitfield.reversed ⟨x, some N⟩ = .ok ⟨r, none⟩ ∧ r < 2 ^ N ∧
      ∀ j, r.testBit j = if j < N then x.testBit (N - 1 - j) else false := by
  have hlen : Bitfield.len ⟨x, some N⟩ = N := by simp [len]
  have hval : Bitfield.val ⟨x, some N⟩ = x := val_of_lt hx
  refine ⟨packSelect x N (sliceIndices N none none (some (-1))), ?_, ?_, ?_⟩
  · simp only [reversed, getSlice, hlen, hval]
    norm_num [stopTooBig]
  · have h1 := packSelect_lt x N (sliceIndices N none none (some (-1)))
      (sliceIndices_length_le _ _ _ _)
    rw [sliceIndices_reverse_length] at h1
    exact h1
  · intro j
    rw [packSelect_testBit x N _ (sliceIndices_length_le _ _ _ _) j]
    by_cases hj : j < N
    · rw [dif_pos (by rw [sliceIndices_reverse_length]; exact hj),
        sliceIndices_reverse_get, if_pos hj]
    · rw [dif_neg (by rw [sliceIndices_reverse_length]; exact hj), if_neg hj]

/-- C8: reverse involution over a fixed width.  For `v < 2 ^ N`, reversing
`Bitfield(v, width=N)` via the `[::-1]` form (what `reversed()` does),
pinning the result's width back to `N`, and reversing again restores the
original value `v`. -/
theorem reverse_involution (N v : Nat) (hv : v < 2 ^ N) :
    ∃ r : Nat, Bitfield.reversed ⟨v, some N⟩ = .ok ⟨r, none⟩ ∧
      Bitfield.reversed ⟨r, some N⟩ = .ok ⟨v, none⟩ := by
  obtain ⟨r, hr1, hrlt, hrbits⟩ := reversed_fixed N v hv
  obtain ⟨r2, hr2, hr2lt, hr2bits⟩ := reversed_fixed N r hrlt
  refine ⟨r, hr1, ?_⟩
  rw [hr2]
  have : r2 = v := by
    apply Nat.eq_of_testBit_eq
    intro j
    rw [hr2bits j]
    by_cases hj : j < N
    · rw [if_pos hj, hrbits (N - 1 - j), if_pos (by omega),
        show N - 1 - (N - 1 - j) = j by omega]
    · rw [if_neg hj]
      have hzero : v.testBit j = false := by
        apply Nat.testBit_lt_two_pow
        calc v < 2 ^ N := hv
          _ ≤ 2 ^ j := Nat.pow_le_pow_right (by omega) (by omega)
      exact hzero.symm
  rw [this]

theorem reverse_involution_witness :
    ∃ r : Nat, Bitfield.reversed ⟨10, some 4⟩ = .ok ⟨r, none⟩ ∧
      Bitfield.reversed ⟨r, some 4⟩ = .ok ⟨10, none⟩ :=
  reverse_involution 4 10 (by decide)

theorem getitem_slice_spec_witness :
    (⟨4, none⟩ : Bitfield).value.testBit 2 =
      (if hj : 2 < (sliceIndices (Bitfield.len ⟨0b11001100, none⟩)
          (some 1) none (some 3)).length
       then (Bitfield.val ⟨0b11001100, none⟩).testBit
          ((sliceIndices (Bitfield.len ⟨0b11001100, none⟩)
            (some 1) none (some 3)).get ⟨2, hj⟩)
       else false) :=
  getitem_slice_spec.1 ⟨0b11001100, none⟩ (some 1) none (some 3) ⟨4, none⟩
    (by simp) (by decide) 2

end Bitfield

namespace Chunker

/-- C2 fails on the code: the final partial chunk is never yielded.  The
source bytes `[0x05]` decode to 5 (bit-length 3); with chunk width 4 the
very first `data[:4]` hits the `stop > length` check (4 > 3) and the
generator raises `IndexError` instead of yielding the zero-padded chunk
`0b0101`.  (The repository's own `test_byte_indivisible_*` tests expect the
padded chunk.) -/
theorem chunkFile_partial_final_chunk_bug :
    chunkFile [5] 4 = .raises [] .indexError := by
  decide

/-- C10: a byte source decoding to 0 — empty, or consisting only of zero
bytes — produces no chunks at all, and appending high-order zero bytes to
any source leaves the chunker's entire behaviour unchanged (zero padding
never produces chunks beyond the highest set bit of the decoded integer). -/
theorem chunkFile_zero_and_padding :
    (∀ (bytes : List Nat) (w : Nat), (∀ x ∈ bytes, x = 0) →
      chunkFile bytes w = .yields []) ∧
    (∀ (bytes : List Nat) (k w : Nat),
      chunkFile (bytes ++ List.replicate k 0) w = chunkFile bytes w) := by
  have hzeros : ∀ bytes : List Nat, (∀ x ∈ bytes, x = 0) → fromBytesLE bytes = 0 := by
    intro bytes
    induction bytes with
    | nil =>
      intro _
      rfl
    | cons a t ih =>
      intro h
      have ha : a = 0 := h a (List.mem_cons_self a t)
      have ht := ih (fun x hx => h x (List.mem_cons_of_mem a hx))
      simp [fromBytesLE, ha, ht]
  constructor
  · intro bytes w h
    show chunkLoop w (fromBytesLE bytes + 1) ⟨fromBytesLE bytes, none⟩ = .yields []
    rw [hzeros bytes h]
    rfl
  · intro bytes k w
    have happend : fromBytesLE (bytes ++ List.replicate k 0) = fromBytesLE bytes := by
      induction bytes with
      | nil =>
        have hz : fromBytesLE (List.replicate k 0) = 0 :=
          hzeros _ (fun x hx => List.eq_of_mem_replicate hx)
        simpa [fromBytesLE] using hz
      | cons a t ih =>
        simp only [List.cons_append, fromBytesLE, List.append_eq, ih]
    show chunkLoop w (fromBytesLE (bytes ++ List.replicate k 0) + 1)
        ⟨fromBytesLE (bytes ++ List.replicate k 0), none⟩ =
      chunkLoop w (fromBytesLE bytes + 1) ⟨fromBytesLE bytes, none⟩
    rw [happend]

theorem chunkFile_zero_and_padding_witness : chunkFile [0, 0] 3 = .yields [] :=
  chunkFile_zero_and_padding.1 [0, 0] 3 (by decide)

end Chunker
